import Mathlib

/-!
Bolty, a thin wrapper around BoltDB.

Shallow embedding of `src/bolty.go`.  The wrapper's own functions (`Bucket`,
`Set`, `Get`, `Delete`, `Seek`, `UserHandler`) are translated line by line.
The BoltDB calls they make (`db.Update`, `db.View`, `tx.Bucket`,
`tx.CreateBucket`, `b.Put`, `b.Get`, `b.Delete`, `Cursor.Seek`, `Cursor.Next`)
belong to the imported library `github.com/boltdb/bolt`; they are modelled here
on a logical store: an open flag and a list of buckets ordered by name, each
bucket a list of key/value records ordered by key (the order a B+tree cursor
walks).  Only flat buckets are modelled: the wrapper has no way of nesting a
bucket inside another one.  A commit of a write transaction is taken to
succeed (no disk failure is modelled).
-/

namespace Bolty

/-! ## Bytes, Go strings and errors -/

/-- One byte. -/
abbrev Byte := Fin 256

/-- A Go `string` or `[]byte`: a finite sequence of bytes.  A nil slice and an
empty slice are both the empty list where the code only reads them. -/
abbrev Bytes := List Byte

/-- The bytes of an ASCII string literal of the source. -/
def ascii (s : String) : Bytes := s.toList.map (fun c => Fin.ofNat c.toNat)

/-- Byte-wise lexicographic order, `bytes.Compare(a, b) == -1`. -/
def bytesLt : Bytes → Bytes → Bool
  | [], [] => false
  | [], _ :: _ => true
  | _ :: _, [] => false
  | a :: as, b :: bs => decide (a < b) || (decide (a = b) && bytesLt as bs)

/-- Go `bytes.HasPrefix(s, pfx)`:
`len(s) >= len(pfx) && bytes.Equal(s[0:len(pfx)], pfx)`. -/
def HasPrefix (s pfx : Bytes) : Bool :=
  decide (pfx.length ≤ s.length) && decide (s.take pfx.length = pfx)

/-- Go `strings.Contains(s, substr)`: `substr` occurs somewhere in `s`. -/
def stringsContains : Bytes → Bytes → Bool
  | [], substr => HasPrefix [] substr
  | c :: s, substr => HasPrefix (c :: s) substr || stringsContains s substr

/-- The Go `error` values the wrapper can see. -/
inductive GoError where
  /-- Value of bolt.ErrDatabaseNotOpen. -/
  | ErrDatabaseNotOpen
  /-- Value of bolt.ErrBucketExists. -/
  | ErrBucketExists
  /-- Value of bolt.ErrBucketNameRequired. -/
  | ErrBucketNameRequired
  /-- Value of bolt.ErrKeyRequired. -/
  | ErrKeyRequired
  /-- Value of bolt.ErrKeyTooLarge. -/
  | ErrKeyTooLarge
  /-- Value of bolt.ErrValueTooLarge. -/
  | ErrValueTooLarge
  /-- An error returned by `json.Marshal`, with its message. -/
  | marshalError (msg : Bytes)
  /-- The error built by `fmt.Errorf("%s", v)`, with its message. -/
  | errorf (msg : Bytes)
  deriving DecidableEq

/-- Go `err.Error()`: the message of an error. -/
def GoError.Error : GoError → Bytes
  | .ErrDatabaseNotOpen => ascii "database not open"
  | .ErrBucketExists => ascii "bucket already exists"
  | .ErrBucketNameRequired => ascii "bucket name required"
  | .ErrKeyRequired => ascii "key required"
  | .ErrKeyTooLarge => ascii "key too large"
  | .ErrValueTooLarge => ascii "value too large"
  | .marshalError msg => msg
  | .errorf msg => msg

/-- How a call of a Go function ends. -/
inductive Run (α : Type) where
  /-- The call returned `a`. -/
  | ret (a : α)
  /-- The call panicked: a nil pointer was dereferenced. -/
  | panic
  /-- The call was still running when the step budget ran out. -/
  | diverge
  deriving DecidableEq

/-! ## The BoltDB store -/

/-- A record of a bucket: key and value. -/
abbrev Rec := Bytes × Bytes

/-- The contents of a bucket: its records in ascending key order. -/
abbrev BucketData := List Rec

/-- The state a transaction works on: the buckets in ascending name order. -/
abbrev Tx := List (Bytes × BucketData)

/-- A database handle, `bolt.DB` as embedded in the wrapper's `DB`. -/
structure DB where
  /-- False once `Close()` has been called. -/
  opened : Bool
  /-- The committed buckets. -/
  buckets : Tx
  deriving DecidableEq

/-- Value of bolt.MaxKeySize. -/
def MaxKeySize : Nat := 32768

/-- Value of bolt.MaxValueSize, `(1 << 31) - 2`. -/
def MaxValueSize : Nat := 2 ^ 31 - 2

/-- Cursor positioning, bolt `c.seek(key)`: the entries from the first one
whose key is not below `key` onwards. -/
def seek {α : Type} (l : List (Bytes × α)) (key : Bytes) : List (Bytes × α) :=
  l.dropWhile (fun p => bytesLt p.1 key)

/-- Bolt `node.put(key, key, value)`: overwrite the entry found at the search
position when its key matches, insert there otherwise. -/
def nodePut {α : Type} : List (Bytes × α) → Bytes → α → List (Bytes × α)
  | [], key, value => [(key, value)]
  | (k, v) :: rest, key, value =>
    if bytesLt k key then (k, v) :: nodePut rest key value
    else if k = key then (key, value) :: rest
    else (key, value) :: (k, v) :: rest

/-- Bolt `node.del(key)`: remove the entry found at the search position when
its key matches. -/
def nodeDel {α : Type} : List (Bytes × α) → Bytes → List (Bytes × α)
  | [], _ => []
  | (k, v) :: rest, key =>
    if bytesLt k key then (k, v) :: nodeDel rest key
    else if k = key then rest
    else (k, v) :: rest

/-- Bolt `tx.Bucket(name)`: the bucket, or nil (`none`) when there is none of
that name. -/
def Tx.Bucket (tx : Tx) (name : Bytes) : Option BucketData :=
  match seek tx name with
  | (k, b) :: _ => if k = name then some b else none
  | [] => none

/-- Bolt `tx.CreateBucket(name)`; the wrapper drops the bucket it returns. -/
def Tx.CreateBucket (tx : Tx) (name : Bytes) : Option GoError × Tx :=
  if name.length = 0 then (some .ErrBucketNameRequired, tx)
  else
    match seek tx name with
    | (k, _) :: _ =>
      if k = name then (some .ErrBucketExists, tx) else (none, nodePut tx name [])
    | [] => (none, nodePut tx name [])

/-- Bolt `b.Put(key, value)` in a writable transaction. -/
def BucketData.Put (b : BucketData) (key value : Bytes) : Option GoError × BucketData :=
  if key.length = 0 then (some .ErrKeyRequired, b)
  else if key.length > MaxKeySize then (some .ErrKeyTooLarge, b)
  else if value.length > MaxValueSize then (some .ErrValueTooLarge, b)
  else (none, nodePut b key value)

/-- Bolt `b.Get(key)`: the value, or nil (`none`) when the key is absent. -/
def BucketData.Get (b : BucketData) (key : Bytes) : Option Bytes :=
  match seek b key with
  | (k, v) :: _ => if k = key then some v else none
  | [] => none

/-- Bolt `b.Delete(key)` in a writable transaction. -/
def BucketData.Delete (b : BucketData) (key : Bytes) : Option GoError × BucketData :=
  (none, nodeDel b key)

/-- Bolt `db.Close()`, a method the wrapper's `DB` gets from the embedded
`*bolt.DB`. -/
def DB.Close (db : DB) : DB := { db with opened := false }

/-- Bolt `db.Update(fn)`: begin a write transaction, run `fn`, commit when it
returns nil, roll back when it returns an error or panics. -/
def DB.Update (db : DB) (fn : Tx → Run (Option GoError × Tx)) : Run (Option GoError) × DB :=
  if db.opened then
    match fn db.buckets with
    | .ret (none, tx) => (.ret none, { db with buckets := tx })
    | .ret (some e, _) => (.ret (some e), db)
    | .panic => (.panic, db)
    | .diverge => (.diverge, db)
  else (.ret (some .ErrDatabaseNotOpen), db)

/-- What `fmt.Printf` wrote in `Seek`: one (key, value) pair per line printed. -/
abbrev Stdout := List (Bytes × Bytes)

/-- Bolt `db.View(fn)`: begin a read-only transaction, run `fn` and return its
error. -/
def DB.View (db : DB) (fn : Tx → Run (Option GoError × Stdout)) : Run (Option GoError × Stdout) :=
  if db.opened then fn db.buckets
  else .ret (some .ErrDatabaseNotOpen, [])

/-- A cursor over a bucket: the records from its position onwards. -/
abbrev Cursor := List Rec

/-- Bolt `c.Seek(key)`: move to the first record whose key is not below `key`;
returns it, or (nil, nil) at the end. -/
def Cursor.Seek (b : BucketData) (key : Bytes) : Option Rec × Cursor :=
  ((seek b key).head?, seek b key)

/-- Bolt `c.Next()`: move to the following record and return it; on the last
record (or in an empty bucket) stay and return (nil, nil). -/
def Cursor.Next : Cursor → Option Rec × Cursor
  | _ :: x :: rest => (some x, x :: rest)
  | c => (none, c)

/-! ## The wrapper: `src/bolty.go` -/

/-- Go `fmt.Errorf("%s", v)` for a byte slice `v`: the message is the bytes of
`v`, and the empty string for a nil `v`. -/
def errorfS (v : Option Bytes) : GoError := .errorf (v.getD [])

/-- Translation of `func (db *DB) Bucket(bucket string) error`. -/
def DB.Bucket (db : DB) (bucket : Bytes) : Run (Option GoError) × DB :=
  db.Update (fun tx =>
    match tx.CreateBucket bucket with
    | (err, tx1) => .ret (err, tx1))

/-- Translation of `func (db *DB) Set(bucket string, key string, value interface{}) error`.
`marshal` stands for `json.Marshal` on the values the caller passes.  A
missing bucket makes `tx.Bucket` return nil, and `b.Put` on nil panics. -/
def DB.Set {V : Type} (marshal : V → Except GoError Bytes) (db : DB) (bucket key : Bytes)
    (value : V) : Run (Option GoError) × DB :=
  match marshal value with
  | .error err => (.ret (some err), db)
  | .ok val =>
    db.Update (fun tx =>
      match tx.Bucket bucket with
      | none => .panic
      | some b =>
        match b.Put key val with
        | (err, b1) => .ret (err, nodePut tx bucket b1))

/-- Translation of `func (db *DB) Get(bucket string, key string) []byte`: the
closure wraps the value read in an error, and `Get` returns the bytes of the
message of whatever error `db.View` returned. -/
def DB.Get (db : DB) (bucket key : Bytes) : Run Bytes :=
  match db.View (fun tx =>
      match tx.Bucket bucket with
      | none => .panic
      | some b => .ret (some (errorfS (b.Get key)), [])) with
  | .ret (some err, _) => .ret err.Error
  | .ret (none, _) => .panic
  | .panic => .panic
  | .diverge => .diverge

/-- Translation of `func (db *DB) Delete(bucket string, key string) error`. -/
def DB.Delete (db : DB) (bucket key : Bytes) : Run (Option GoError) × DB :=
  db.Update (fun tx =>
    match tx.Bucket bucket with
    | none => .panic
    | some b =>
      match b.Delete key with
      | (err, b1) => .ret (err, nodePut tx bucket b1))

/-- The key of a cursor result as `bytes.HasPrefix` and `%s` read it: a nil key
is the empty byte sequence. -/
def keyOf (kv : Option Rec) : Bytes := (kv.map Prod.fst).getD []

/-- The value of a cursor result as `%s` reads it. -/
def valueOf (kv : Option Rec) : Bytes := (kv.map Prod.snd).getD []

/-- The loop of `Seek`,
`for k, v := c.Seek(pfx); bytes.HasPrefix(k, pfx); k, v = c.Next() { fmt.Printf(..., k, v) }`,
from the state after the init statement, run for at most `fuel` tests of the
loop condition.  `out` is what has been printed so far. -/
def seekLoop (pfx : Bytes) : Nat → Option Rec × Cursor → Stdout → Run Stdout
  | 0, _, _ => .diverge
  | fuel + 1, (kv, c), out =>
    if HasPrefix (keyOf kv) pfx then
      seekLoop pfx fuel (Cursor.Next c) (out ++ [(keyOf kv, valueOf kv)])
    else .ret out

/-- Translation of `func (db *DB) Seek(bucket string, key string) error`, with
the lines it prints. -/
def DB.Seek (fuel : Nat) (db : DB) (bucket key : Bytes) : Run (Option GoError × Stdout) :=
  db.View (fun tx =>
    match tx.Bucket bucket with
    | none => .panic
    | some b =>
      match seekLoop key fuel (Cursor.Seek b key) [] with
      | .ret out => .ret (none, out)
      | .panic => .panic
      | .diverge => .diverge)

/-- Translation of `type RequestBody struct`. -/
structure RequestBody where
  /-- JSON field "action". -/
  Action : Bytes
  /-- JSON field "name". -/
  Name : Bytes
  /-- JSON field "pass". -/
  Pass : Bytes
  /-- JSON field "mail". -/
  Mail : Bytes
  deriving DecidableEq

/-- The part of `http.ResponseWriter` the handler uses. -/
structure ResponseWriter where
  /-- Header fields set so far. -/
  header : List (Bytes × Bytes)
  /-- The byte slices passed to `w.Write`, in order. -/
  body : List Bytes
  deriving DecidableEq

/-- Go `json.Marshal(s)` for a string made of characters JSON does not escape
(the handler marshals only the literals "success", "failed", "invalid"): the
string between double quotes. -/
def marshalString (s : Bytes) : Bytes := 34 :: s ++ [34]

/-- Go `w.Write(status)`. -/
def ResponseWriter.Write (w : ResponseWriter) (p : Bytes) : ResponseWriter :=
  { w with body := w.body ++ [p] }

/-- Go `w.Header().Set(key, value)`. -/
def ResponseWriter.HeaderSet (w : ResponseWriter) (key value : Bytes) : ResponseWriter :=
  { w with header := (key, value) :: w.header.filter (fun h => h.1 ≠ key) }

/-- Translation of `func (db *DB) UserHandler(w http.ResponseWriter, r *http.Request)`,
from the request body as `json.Unmarshal` decoded it.  What the handler prints
and logs is left out; the result is the response writer and the store. -/
def DB.UserHandler (db : DB) (w : ResponseWriter) (rBody : RequestBody) : ResponseWriter × DB :=
  let w := w.HeaderSet (ascii "Content-Type") (ascii "application/json; charset=UTF-8")
  if rBody.Name.length ≥ 5 ∧ rBody.Pass.length ≥ 5 then
    let ok := ascii "success"
    if rBody.Action = ascii "REGISTER" then
      let ok := if ¬ stringsContains rBody.Mail (ascii "@") then ascii "failed" else ok
      (w.Write (marshalString ok), db)
    else if rBody.Action = ascii "LOGIN" then
      (w.Write (marshalString ok), db)
    else if rBody.Action = ascii "LOGOUT" then
      (w.Write (marshalString ok), db)
    else
      let ok := ascii "invalid"
      (w.Write (marshalString ok), db)
  else (w, db)

/-! ## Well-formed stores and example data -/

/-- Keys strictly ascending in byte order. -/
def SortedKeys {α : Type} (l : List (Bytes × α)) : Prop :=
  l.Pairwise (fun p q => bytesLt p.1 q.1 = true)

/-- No empty key: `Put` and `CreateBucket` refuse one. -/
def NonEmptyKeys {α : Type} (l : List (Bytes × α)) : Prop :=
  ∀ p ∈ l, p.1 ≠ []

/-- The shape BoltDB keeps a store in: bucket names and the keys of each bucket
are non-empty and strictly ascending. -/
def DB.WF (db : DB) : Prop :=
  SortedKeys db.buckets ∧ NonEmptyKeys db.buckets ∧
    ∀ p ∈ db.buckets, SortedKeys p.2 ∧ NonEmptyKeys p.2

instance {α : Type} (l : List (Bytes × α)) : Decidable (SortedKeys l) := by
  unfold SortedKeys; infer_instance

instance {α : Type} (l : List (Bytes × α)) : Decidable (NonEmptyKeys l) := by
  unfold NonEmptyKeys; infer_instance

instance (db : DB) : Decidable db.WF := by
  unfold DB.WF; infer_instance

/-- A few Go values for the examples. -/
inductive GoValue where
  /-- The nil interface value. -/
  | null
  /-- A Go bool. -/
  | bool (b : Bool)
  /-- A Go channel. -/
  | chan
  deriving DecidableEq

/-- Go `json.Marshal` on the example values: a channel is an unsupported
type. -/
def jsonMarshal : GoValue → Except GoError Bytes
  | .null => .ok (ascii "null")
  | .bool true => .ok (ascii "true")
  | .bool false => .ok (ascii "false")
  | .chan => .error (.marshalError (ascii "json: unsupported type: chan int"))

/-- Go `json.Unmarshal` into an interface, on what `jsonMarshal` writes. -/
def jsonUnmarshal (data : Bytes) : Option GoValue :=
  if data = ascii "null" then some .null
  else if data = ascii "true" then some (.bool true)
  else if data = ascii "false" then some (.bool false)
  else none

/-- A freshly opened, empty store. -/
def emptyDB : DB := { opened := true, buckets := [] }

/-- The store after `Bucket("users")` and `Set` of the keys alice, alan and
bob, in that order. -/
def usersDB : DB :=
  let db := (emptyDB.Bucket (ascii "users")).2
  let db := (db.Set jsonMarshal (ascii "users") (ascii "alice") (.bool true)).2
  let db := (db.Set jsonMarshal (ascii "users") (ascii "alan") (.bool false)).2
  (db.Set jsonMarshal (ascii "users") (ascii "bob") .null).2

/-- The store `usersDB` after `Close()`. -/
def closedDB : DB := usersDB.Close

/-! ## Facts about the byte order and prefixes -/

theorem bytesLt_irrefl (a : Bytes) : bytesLt a a = false := by
  induction a with
  | nil => rfl
  | cons x xs ih => simp [bytesLt, ih]

theorem bytesLt_trans {a b c : Bytes} (h1 : bytesLt a b = true) (h2 : bytesLt b c = true) :
    bytesLt a c = true := by
  induction a generalizing b c with
  | nil =>
    cases b with
    | nil => simp [bytesLt] at h1
    | cons y ys =>
      cases c with
      | nil => simp [bytesLt] at h2
      | cons z zs => simp [bytesLt]
  | cons x xs ih =>
    cases b with
    | nil => simp [bytesLt] at h1
    | cons y ys =>
      cases c with
      | nil => simp [bytesLt] at h2
      | cons z zs =>
        simp only [bytesLt, Bool.or_eq_true, decide_eq_true_eq, Bool.and_eq_true] at h1 h2 ⊢
        rcases h1 with h1 | ⟨h1, h1t⟩ <;> rcases h2 with h2 | ⟨h2, h2t⟩
        · exact Or.inl (lt_trans h1 h2)
        · exact Or.inl (h2 ▸ h1)
        · exact Or.inl (h1 ▸ h2)
        · exact Or.inr ⟨h1.trans h2, ih h1t h2t⟩

theorem bytesLt_ne {a b : Bytes} (h : bytesLt a b = true) : a ≠ b := by
  intro e
  subst e
  rw [bytesLt_irrefl] at h
  exact Bool.noConfusion h

theorem bytesLt_asymm {a b : Bytes} (h : bytesLt a b = true) : bytesLt b a = false := by
  cases hb : bytesLt b a with
  | false => rfl
  | true =>
    have := bytesLt_trans h hb
    rw [bytesLt_irrefl] at this
    exact Bool.noConfusion this

theorem HasPrefix_nil (s : Bytes) : HasPrefix s [] = true := by
  simp [HasPrefix]

theorem HasPrefix_nil_cons (a : Byte) (p : Bytes) : HasPrefix [] (a :: p) = false := by
  simp [HasPrefix]

theorem HasPrefix_cons_cons (c : Byte) (s : Bytes) (a : Byte) (p : Bytes) :
    HasPrefix (c :: s) (a :: p) = (decide (c = a) && HasPrefix s p) := by
  simp only [HasPrefix, List.length_cons, List.take_succ_cons, List.cons.injEq,
    Nat.add_le_add_iff_right]
  by_cases h1 : p.length ≤ s.length <;> by_cases h2 : c = a <;>
    by_cases h3 : List.take p.length s = p <;> simp [h1, h2, h3]

/-- A key below the sought bytes does not start with them. -/
theorem HasPrefix_false_of_lt {k p : Bytes} (h : bytesLt k p = true) : HasPrefix k p = false := by
  induction p generalizing k with
  | nil => cases k <;> simp [bytesLt] at h
  | cons a ps ih =>
    cases k with
    | nil => exact HasPrefix_nil_cons a ps
    | cons c ks =>
      rw [HasPrefix_cons_cons]
      simp only [bytesLt, Bool.or_eq_true, decide_eq_true_eq, Bool.and_eq_true] at h
      rcases h with h | ⟨h, ht⟩
      · have : c ≠ a := ne_of_lt h
        simp [this]
      · simp [ih ht]

/-- Past the first key that is neither below the sought bytes nor starts with
them, no key starts with them. -/
theorem HasPrefix_false_of_gt {k p j : Bytes} (h1 : bytesLt k p = false)
    (h2 : HasPrefix k p = false) (h3 : bytesLt k j = true) : HasPrefix j p = false := by
  induction p generalizing k j with
  | nil => rw [HasPrefix_nil] at h2; exact Bool.noConfusion h2
  | cons a ps ih =>
    cases k with
    | nil => simp [bytesLt] at h1
    | cons c ks =>
      cases j with
      | nil => simp [bytesLt] at h3
      | cons d js =>
        rw [HasPrefix_cons_cons] at h2 ⊢
        simp only [bytesLt, Bool.or_eq_false_iff, decide_eq_false_iff_not, Bool.and_eq_false_imp,
          decide_eq_true_eq, Bool.or_eq_true, Bool.and_eq_true] at h1 h2 h3
        by_cases hda : d = a
        · subst hda
          rcases h3 with h3 | ⟨h3, h3t⟩
          · exact absurd h3 h1.1
          · subst h3
            have := ih (h1.2 rfl) (h2 rfl) h3t
            simp [this]
        · simp [hda]

/-! ## Facts about the ordered entry lists -/

theorem seek_nodePut {α : Type} (l : List (Bytes × α)) (k : Bytes) (v : α) :
    ∃ rest, seek (nodePut l k v) k = (k, v) :: rest := by
  induction l with
  | nil => exact ⟨[], by simp [nodePut, seek, List.dropWhile, bytesLt_irrefl]⟩
  | cons p l ih =>
    obtain ⟨k0, v0⟩ := p
    obtain ⟨rest, hrest⟩ := ih
    by_cases h : bytesLt k0 k = true
    · refine ⟨rest, ?_⟩
      simp only [nodePut, h, if_true]
      simpa [seek, List.dropWhile, h] using hrest
    · by_cases e : k0 = k
      · exact ⟨l, by simp [nodePut, h, e, seek, List.dropWhile, bytesLt_irrefl]⟩
      · exact ⟨(k0, v0) :: l, by simp [nodePut, h, e, seek, List.dropWhile, bytesLt_irrefl]⟩

theorem mem_of_mem_seek {α : Type} {l : List (Bytes × α)} {k : Bytes} {p : Bytes × α}
    (h : p ∈ seek l k) : p ∈ l :=
  (List.dropWhile_sublist _).subset h

theorem seek_of_mem {α : Type} {l : List (Bytes × α)} (hs : SortedKeys l) {k : Bytes} {v : α}
    (h : (k, v) ∈ l) : ∃ rest, seek l k = (k, v) :: rest := by
  induction l with
  | nil => cases h
  | cons p l ih =>
    obtain ⟨k0, v0⟩ := p
    have hs1 := List.pairwise_cons.mp hs
    rcases List.mem_cons.mp h with e | hm
    · cases e
      exact ⟨l, by simp [seek, List.dropWhile, bytesLt_irrefl]⟩
    · have hlt : bytesLt k0 k = true := hs1.1 (k, v) hm
      obtain ⟨rest, hrest⟩ := ih hs1.2 hm
      refine ⟨rest, ?_⟩
      simpa [seek, List.dropWhile, hlt] using hrest

theorem nodePut_same {α : Type} {l : List (Bytes × α)} {k : Bytes} {v : α}
    {rest : List (Bytes × α)} (h : seek l k = (k, v) :: rest) : nodePut l k v = l := by
  induction l with
  | nil => simp [seek] at h
  | cons p l ih =>
    obtain ⟨k0, v0⟩ := p
    by_cases hlt : bytesLt k0 k = true
    · have h1 : seek l k = (k, v) :: rest := by
        simpa [seek, List.dropWhile, hlt] using h
      simp [nodePut, hlt, ih h1]
    · have h1 : (k0, v0) :: l = (k, v) :: rest := by
        simpa [seek, List.dropWhile, hlt] using h
      cases h1
      simp [nodePut, hlt]

theorem nodePut_nodePut {α : Type} (l : List (Bytes × α)) (k : Bytes) (v w : α) :
    nodePut (nodePut l k v) k w = nodePut l k w := by
  induction l with
  | nil => simp [nodePut, bytesLt_irrefl]
  | cons p l ih =>
    obtain ⟨k0, v0⟩ := p
    by_cases hlt : bytesLt k0 k = true
    · simp [nodePut, hlt, ih]
    · by_cases e : k0 = k
      · simp [nodePut, hlt, e, bytesLt_irrefl]
      · simp [nodePut, hlt, e, bytesLt_irrefl]

theorem nodeDel_absent {α : Type} {l : List (Bytes × α)} {k : Bytes}
    (h : ∀ p ∈ l, p.1 ≠ k) : nodeDel l k = l := by
  induction l with
  | nil => rfl
  | cons p l ih =>
    obtain ⟨k0, v0⟩ := p
    have hk : k0 ≠ k := h (k0, v0) (List.mem_cons_self _ _)
    have hl : nodeDel l k = l := ih (fun q hq => h q (List.mem_cons_of_mem _ hq))
    by_cases hlt : bytesLt k0 k = true
    · simp [nodeDel, hlt, hl]
    · simp [nodeDel, hlt, hk]

/-- In a sorted list whose keys are all above `k`, nothing is deleted. -/
theorem nodeDel_above {α : Type} {l : List (Bytes × α)} {k : Bytes}
    (h : ∀ p ∈ l, bytesLt k p.1 = true) : nodeDel l k = l :=
  nodeDel_absent (fun p hp e => bytesLt_ne (h p hp) e.symm)

theorem nodeDel_nodeDel {α : Type} {l : List (Bytes × α)} (hs : SortedKeys l) (k : Bytes) :
    nodeDel (nodeDel l k) k = nodeDel l k := by
  induction l with
  | nil => rfl
  | cons p l ih =>
    obtain ⟨k0, v0⟩ := p
    have hs1 := List.pairwise_cons.mp hs
    by_cases hlt : bytesLt k0 k = true
    · simp [nodeDel, hlt, ih hs1.2]
    · by_cases e : k0 = k
      · subst e
        simp only [nodeDel, hlt, if_false, if_true]
        exact nodeDel_above (fun q hq => hs1.1 q hq)
      · simp [nodeDel, hlt, e]

/-- The entry a lookup reads off the cursor, as `tx.Bucket` and `b.Get` do. -/
theorem seek_nodeDel {α : Type} {l : List (Bytes × α)} (hs : SortedKeys l) (k : Bytes) :
    ∀ p ∈ (seek (nodeDel l k) k).head?, p.1 ≠ k := by
  induction l with
  | nil => simp [nodeDel, seek]
  | cons p l ih =>
    obtain ⟨k0, v0⟩ := p
    have hs1 := List.pairwise_cons.mp hs
    by_cases hlt : bytesLt k0 k = true
    · simpa [nodeDel, hlt, seek, List.dropWhile] using ih hs1.2
    · by_cases e : k0 = k
      · subst e
        simp only [nodeDel, hlt, if_false, if_true]
        intro q hq
        have hq1 : q ∈ seek l k0 := List.mem_of_mem_head? hq
        exact fun e => bytesLt_ne (hs1.1 q (mem_of_mem_seek hq1)) e.symm
      · simp [nodeDel, hlt, e, seek, List.dropWhile]

theorem Tx.Bucket_of_mem {tx : Tx} (hs : SortedKeys tx) {name : Bytes} {b : BucketData}
    (h : (name, b) ∈ tx) : Tx.Bucket tx name = some b := by
  obtain ⟨rest, hrest⟩ := seek_of_mem hs h
  simp [Tx.Bucket, hrest]

theorem Tx.Bucket_absent {tx : Tx} {name : Bytes} (h : ∀ p ∈ tx, p.1 ≠ name) :
    Tx.Bucket tx name = none := by
  unfold Tx.Bucket
  split
  · rename_i k b rest heq
    have hm : (k, b) ∈ tx := mem_of_mem_seek (heq ▸ List.mem_cons_self _ _)
    simp [h (k, b) hm]
  · rfl

theorem Tx.Bucket_nodePut (tx : Tx) (name : Bytes) (b : BucketData) :
    Tx.Bucket (nodePut tx name b) name = some b := by
  obtain ⟨rest, hrest⟩ := seek_nodePut tx name b
  simp [Tx.Bucket, hrest]

theorem Tx.nodePut_of_Bucket {tx : Tx} {name : Bytes} {b : BucketData}
    (h : Tx.Bucket tx name = some b) : nodePut tx name b = tx := by
  unfold Tx.Bucket at h
  split at h
  · rename_i k b0 rest heq
    by_cases e : k = name
    · subst e
      simp only [if_true, Option.some.injEq] at h
      subst h
      exact nodePut_same heq
    · simp [e] at h
  · cases h

theorem BucketData.Get_nodePut (b : BucketData) (k v : Bytes) :
    BucketData.Get (nodePut b k v) k = some v := by
  obtain ⟨rest, hrest⟩ := seek_nodePut b k v
  simp [BucketData.Get, hrest]

theorem BucketData.Get_absent {b : BucketData} {k : Bytes} (h : ∀ p ∈ b, p.1 ≠ k) :
    BucketData.Get b k = none := by
  unfold BucketData.Get
  split
  · rename_i k0 v rest heq
    have hm : (k0, v) ∈ b := mem_of_mem_seek (heq ▸ List.mem_cons_self _ _)
    simp [h (k0, v) hm]
  · rfl

theorem BucketData.Get_nodeDel {b : BucketData} (hs : SortedKeys b) (k : Bytes) :
    BucketData.Get (nodeDel b k) k = none := by
  have h := seek_nodeDel hs k
  unfold BucketData.Get
  split
  · rename_i k0 v rest heq
    have : k0 ≠ k := h (k0, v) (by simp [heq])
    simp [this]
  · rfl

/-! ## Facts about the scan loop -/

theorem HasPrefix_nil_left {pfx : Bytes} (hp : pfx ≠ []) : HasPrefix [] pfx = false := by
  cases pfx with
  | nil => exact absurd rfl hp
  | cons a p => exact HasPrefix_nil_cons a p

/-- The loop stops at once on a nil key when the sought bytes are not empty. -/
theorem seekLoop_nil_key {pfx : Bytes} (hp : pfx ≠ []) (fuel : Nat) (c : Cursor) (out : Stdout) :
    seekLoop pfx (fuel + 1) (none, c) out = .ret out := by
  simp [seekLoop, keyOf, HasPrefix_nil_left hp]

/-- From a record on, the loop prints the longest run of records that start
with the sought bytes, and returns. -/
theorem seekLoop_cons {pfx : Bytes} (hp : pfx ≠ []) (rest : List Rec) :
    ∀ (x : Rec) (out : Stdout) (fuel : Nat), rest.length + 2 ≤ fuel →
      seekLoop pfx fuel (some x, x :: rest) out
        = .ret (out ++ (x :: rest).takeWhile (fun r => HasPrefix r.1 pfx)) := by
  induction rest with
  | nil =>
    intro x out fuel hf
    obtain ⟨f, rfl⟩ : ∃ f, fuel = f + 2 := ⟨fuel - 2, by omega⟩
    by_cases h : HasPrefix x.1 pfx = true
    · simp [seekLoop, keyOf, valueOf, h, Cursor.Next, HasPrefix_nil_left hp, List.takeWhile]
    · simp [seekLoop, keyOf, h, List.takeWhile]
  | cons y rest ih =>
    intro x out fuel hf
    obtain ⟨f, rfl⟩ : ∃ f, fuel = f + 1 := ⟨fuel - 1, by simp at hf; omega⟩
    by_cases h : HasPrefix x.1 pfx = true
    · have hf1 : rest.length + 2 ≤ f := by simp at hf; omega
      have := ih y (out ++ [x]) f hf1
      simp only [seekLoop, keyOf, valueOf, Option.map_some', Option.getD_some, h, if_true,
        Cursor.Next]
      rw [this]
      simp [List.takeWhile, h]
    · simp [seekLoop, keyOf, h, List.takeWhile]

theorem seekLoop_Seek {pfx : Bytes} (hp : pfx ≠ []) (b : BucketData) (key : Bytes) (fuel : Nat)
    (hf : b.length + 1 ≤ fuel) :
    seekLoop pfx fuel (Cursor.Seek b key) []
      = .ret ((seek b key).takeWhile (fun r => HasPrefix r.1 pfx)) := by
  have hlen : (seek b key).length ≤ b.length := (List.dropWhile_sublist _).length_le
  unfold Cursor.Seek
  cases hsk : seek b key with
  | nil =>
    obtain ⟨f, rfl⟩ : ∃ f, fuel = f + 1 := ⟨fuel - 1, by omega⟩
    simpa using seekLoop_nil_key hp f [] []
  | cons x rest =>
    rw [hsk] at hlen
    have := seekLoop_cons hp rest x [] fuel (by simp at hlen; omega)
    simpa using this

/-- With empty sought bytes the loop condition holds in every state, a nil key
included, so no step budget is enough. -/
theorem seekLoop_empty (fuel : Nat) :
    ∀ (st : Option Rec × Cursor) (out : Stdout), seekLoop [] fuel st out = .diverge := by
  induction fuel with
  | zero => intro st out; rfl
  | succ n ih =>
    intro st out
    obtain ⟨kv, c⟩ := st
    simp [seekLoop, HasPrefix_nil, ih]

/-- In a sorted bucket, from the first key not below the sought bytes, the run
of keys starting with them holds every such key. -/
theorem takeWhile_eq_filter {pfx : Bytes} (l : List Rec) :
    ∀ (x : Rec), SortedKeys (x :: l) → bytesLt x.1 pfx = false →
      (x :: l).takeWhile (fun r => HasPrefix r.1 pfx)
        = (x :: l).filter (fun r => HasPrefix r.1 pfx) := by
  induction l with
  | nil => intro x _ _; by_cases h : HasPrefix x.1 pfx = true <;> simp [List.takeWhile, h]
  | cons y l ih =>
    intro x hs hx
    have hs1 := List.pairwise_cons.mp hs
    by_cases h : HasPrefix x.1 pfx = true
    · have hxy : bytesLt x.1 y.1 = true := hs1.1 y (List.mem_cons_self _ _)
      have hy : bytesLt y.1 pfx = false := by
        cases hyp : bytesLt y.1 pfx with
        | false => rfl
        | true => rw [bytesLt_trans hxy hyp] at hx; exact Bool.noConfusion hx
      have := ih y hs1.2 hy
      rw [List.takeWhile_cons, List.filter_cons]
      simp only [h, if_true]
      rw [this]
    · have h0 : HasPrefix x.1 pfx = false := by simpa using h
      have hall : ∀ r ∈ y :: l, ¬ HasPrefix r.1 pfx = true := by
        intro r hr
        rw [HasPrefix_false_of_gt hx h0 (hs1.1 r hr)]
        exact Bool.noConfusion
      rw [List.takeWhile_cons, List.filter_cons]
      simp only [h0, if_false, Bool.false_eq_true]
      exact (List.filter_eq_nil_iff.mpr hall).symm

theorem takeWhile_seek_eq_filter {pfx : Bytes} {b : BucketData} (hs : SortedKeys b) :
    (seek b pfx).takeWhile (fun r => HasPrefix r.1 pfx)
      = b.filter (fun r => HasPrefix r.1 pfx) := by
  induction b with
  | nil => rfl
  | cons x l ih =>
    have hs1 := List.pairwise_cons.mp hs
    by_cases hlt : bytesLt x.1 pfx = true
    · have hx : ¬ HasPrefix x.1 pfx = true := by
        rw [HasPrefix_false_of_lt hlt]; exact Bool.noConfusion
      have : seek (x :: l) pfx = seek l pfx := by simp [seek, List.dropWhile, hlt]
      rw [this, List.filter_cons]
      simp only [hx, if_false]
      exact ih hs1.2
    · have hlt0 : bytesLt x.1 pfx = false := by simpa using hlt
      have : seek (x :: l) pfx = x :: l := by simp [seek, List.dropWhile, hlt0]
      rw [this]
      exact takeWhile_eq_filter l x hs hlt0

/-! ## The store stays well-formed -/

theorem bytesLt_total {a b : Bytes} (h1 : bytesLt a b = false) (h2 : a ≠ b) :
    bytesLt b a = true := by
  induction a generalizing b with
  | nil =>
    cases b with
    | nil => exact absurd rfl h2
    | cons y ys => simp [bytesLt] at h1
  | cons x xs ih =>
    cases b with
    | nil => simp [bytesLt]
    | cons y ys =>
      simp only [bytesLt, Bool.or_eq_false_iff, decide_eq_false_iff_not, Bool.and_eq_false_imp,
        decide_eq_true_eq, Bool.or_eq_true, Bool.and_eq_true] at h1 ⊢
      by_cases e : x = y
      · subst e
        have hne : xs ≠ ys := fun e => h2 (by rw [e])
        exact Or.inr ⟨rfl, ih (h1.2 rfl) hne⟩
      · exact Or.inl (lt_of_le_of_ne (not_lt.mp h1.1) (Ne.symm e))

theorem mem_nodePut {α : Type} {l : List (Bytes × α)} {k : Bytes} {v : α} {p : Bytes × α}
    (h : p ∈ nodePut l k v) : p = (k, v) ∨ p ∈ l := by
  induction l with
  | nil => simpa [nodePut] using h
  | cons q l ih =>
    obtain ⟨k0, v0⟩ := q
    by_cases hlt : bytesLt k0 k = true
    · have hput : nodePut ((k0, v0) :: l) k v = (k0, v0) :: nodePut l k v := by
        simp [nodePut, hlt]
      rw [hput] at h
      rcases List.mem_cons.mp h with h | h
      · exact Or.inr (h ▸ List.mem_cons_self _ _)
      · rcases ih h with h | h
        · exact Or.inl h
        · exact Or.inr (List.mem_cons_of_mem _ h)
    · by_cases e : k0 = k
      · have hput : nodePut ((k0, v0) :: l) k v = (k, v) :: l := by
          simp [nodePut, e, bytesLt_irrefl]
        rw [hput] at h
        rcases List.mem_cons.mp h with h | h
        · exact Or.inl h
        · exact Or.inr (List.mem_cons_of_mem _ h)
      · have hput : nodePut ((k0, v0) :: l) k v = (k, v) :: (k0, v0) :: l := by
          simp [nodePut, hlt, e]
        rw [hput] at h
        rcases List.mem_cons.mp h with h | h
        · exact Or.inl h
        · exact Or.inr h

theorem nodePut_sorted {α : Type} {l : List (Bytes × α)} (hs : SortedKeys l) (k : Bytes)
    (v : α) : SortedKeys (nodePut l k v) := by
  induction l with
  | nil => simp [nodePut, SortedKeys]
  | cons q l ih =>
    obtain ⟨k0, v0⟩ := q
    have hs1 := List.pairwise_cons.mp hs
    by_cases hlt : bytesLt k0 k = true
    · simp only [nodePut, hlt, if_true]
      refine List.pairwise_cons.mpr ⟨?_, ih hs1.2⟩
      intro p hp
      rcases mem_nodePut hp with h | h
      · rw [h]; exact hlt
      · exact hs1.1 p h
    · by_cases e : k0 = k
      · subst e
        simp only [nodePut, hlt, if_true, if_false]
        exact List.pairwise_cons.mpr ⟨hs1.1, hs1.2⟩
      · have hgt : bytesLt k k0 = true := bytesLt_total (by simpa using hlt) e
        simp only [nodePut, hlt, e, if_false]
        refine List.pairwise_cons.mpr ⟨?_, hs⟩
        intro p hp
        rcases List.mem_cons.mp hp with h | h
        · rw [h]; exact hgt
        · exact bytesLt_trans hgt (hs1.1 p h)

theorem nodeDel_sublist {α : Type} (l : List (Bytes × α)) (k : Bytes) :
    (nodeDel l k).Sublist l := by
  induction l with
  | nil => exact List.Sublist.refl _
  | cons q l ih =>
    obtain ⟨k0, v0⟩ := q
    by_cases hlt : bytesLt k0 k = true
    · have hdel : nodeDel ((k0, v0) :: l) k = (k0, v0) :: nodeDel l k := by
        simp [nodeDel, hlt]
      rw [hdel]
      exact ih.cons₂ _
    · by_cases e : k0 = k
      · have hdel : nodeDel ((k0, v0) :: l) k = l := by
          simp [nodeDel, e, bytesLt_irrefl]
        rw [hdel]
        exact List.sublist_cons_self _ _
      · have hdel : nodeDel ((k0, v0) :: l) k = (k0, v0) :: l := by
          simp [nodeDel, hlt, e]
        rw [hdel]

theorem Tx.mem_of_Bucket {tx : Tx} {name : Bytes} {b : BucketData}
    (h : Tx.Bucket tx name = some b) : (name, b) ∈ tx := by
  unfold Tx.Bucket at h
  split at h
  · rename_i k b0 rest heq
    by_cases e : k = name
    · subst e
      simp only [if_true, Option.some.injEq] at h
      subst h
      exact mem_of_mem_seek (heq ▸ List.mem_cons_self _ _)
    · simp [e] at h
  · cases h

/-- Replacing the contents of a bucket by well-formed contents keeps a store
well-formed. -/
theorem WF_nodePut {db : DB} (hwf : db.WF) {name : Bytes} (hn : name ≠ []) {b : BucketData}
    (hb : SortedKeys b ∧ NonEmptyKeys b) :
    DB.WF { db with buckets := nodePut db.buckets name b } := by
  refine ⟨nodePut_sorted hwf.1 name b, ?_, ?_⟩
  · intro p hp
    rcases mem_nodePut hp with h | h
    · rw [h]; exact hn
    · exact hwf.2.1 p h
  · intro p hp
    rcases mem_nodePut hp with h | h
    · rw [h]; exact hb
    · exact hwf.2.2 p h

/-- Calling `Bucket` keeps a store well-formed. -/
theorem Bucket_WF {db : DB} (hwf : db.WF) (bucket : Bytes) : (db.Bucket bucket).2.WF := by
  have hempty : SortedKeys ([] : BucketData) ∧ NonEmptyKeys ([] : BucketData) :=
    ⟨List.Pairwise.nil, fun p hp => by cases hp⟩
  unfold DB.Bucket DB.Update
  cases hopen : db.opened with
  | false => exact hwf
  | true =>
    simp only [if_true]
    cases hc : Tx.CreateBucket db.buckets bucket with
    | mk err tx1 =>
      cases err with
      | some e => exact hwf
      | none =>
        have hput : bucket ≠ [] ∧ tx1 = nodePut db.buckets bucket [] := by
          unfold Tx.CreateBucket at hc
          split_ifs at hc with hl
          · simp at hc
          · have hn : bucket ≠ [] := fun e => hl (by rw [e]; rfl)
            split at hc
            · split_ifs at hc
              · simp at hc
              · exact ⟨hn, (Prod.mk.inj hc).2.symm⟩
            · exact ⟨hn, (Prod.mk.inj hc).2.symm⟩
        obtain ⟨hn, rfl⟩ := hput
        exact WF_nodePut hwf hn hempty

/-- Calling `Set` keeps a store well-formed. -/
theorem Set_WF {V : Type} (marshal : V → Except GoError Bytes) {db : DB} (hwf : db.WF)
    (bucket key : Bytes) (value : V) : (db.Set marshal bucket key value).2.WF := by
  unfold DB.Set
  cases hm : marshal value with
  | error e => exact hwf
  | ok val =>
    simp only [DB.Update]
    cases hopen : db.opened with
    | false => exact hwf
    | true =>
      simp only [if_true]
      cases hb : Tx.Bucket db.buckets bucket with
      | none => exact hwf
      | some b =>
        have hmem := Tx.mem_of_Bucket hb
        simp only [BucketData.Put]
        split_ifs with h1 h2 h3
        · exact hwf
        · exact hwf
        · exact hwf
        · have hk : key ≠ [] := fun e => h1 (by rw [e]; rfl)
          refine WF_nodePut hwf (hwf.2.1 _ hmem) ⟨nodePut_sorted (hwf.2.2 _ hmem).1 key val, ?_⟩
          intro p hp
          rcases mem_nodePut hp with h | h
          · rw [h]; exact hk
          · exact (hwf.2.2 _ hmem).2 p h

/-- Calling `Delete` keeps a store well-formed. -/
theorem Delete_WF {db : DB} (hwf : db.WF) (bucket key : Bytes) :
    (db.Delete bucket key).2.WF := by
  unfold DB.Delete
  simp only [DB.Update]
  cases hopen : db.opened with
  | false => exact hwf
  | true =>
    simp only [if_true]
    cases hb : Tx.Bucket db.buckets bucket with
    | none => exact hwf
    | some b =>
      have hmem := Tx.mem_of_Bucket hb
      simp only [BucketData.Delete]
      refine WF_nodePut hwf (hwf.2.1 _ hmem)
        ⟨List.Pairwise.sublist (nodeDel_sublist b key) (hwf.2.2 _ hmem).1, ?_⟩
      intro p hp
      exact (hwf.2.2 _ hmem).2 p ((nodeDel_sublist b key).subset hp)

/-! ## Set, Get and Delete -/

/-- C1: when `Set(bucket, key, value)` returns no error, `Get(bucket, key)` on
the resulting store returns exactly the bytes `json.Marshal` produced for the
value (whether the key was fresh or already held a value), so any decoder that
reads those bytes back as the value reads the result of `Get` back as the
value. -/
theorem set_then_get {V : Type} (marshal : V → Except GoError Bytes) (db db1 : DB)
    (bucket key : Bytes) (value : V) (val : Bytes)
    (hm : marshal value = .ok val)
    (hset : db.Set marshal bucket key value = (.ret none, db1)) :
    db1.Get bucket key = .ret val ∧
      ∀ unmarshal : Bytes → Option V, unmarshal val = some value →
        ∃ bs, db1.Get bucket key = .ret bs ∧ unmarshal bs = some value := by
  have hget : db1.Get bucket key = .ret val := by
    unfold DB.Set at hset
    rw [hm] at hset
    simp only [DB.Update] at hset
    cases hopen : db.opened with
    | false => simp [hopen] at hset
    | true =>
      simp only [hopen, if_true] at hset
      cases hb : Tx.Bucket db.buckets bucket with
      | none => simp [hb] at hset
      | some b =>
        simp only [hb, BucketData.Put] at hset
        split_ifs at hset with h1 h2 h3
        · simp at hset
        · simp at hset
        · simp at hset
        · simp only [Prod.mk.injEq, true_and] at hset
          subst hset
          simp [DB.Get, DB.View, hopen, Tx.Bucket_nodePut, BucketData.Get_nodePut, errorfS,
            GoError.Error]
  exact ⟨hget, fun unmarshal hu => ⟨val, hget, hu⟩⟩

/-- Witness of C1: a fresh key, then the same key overwritten, and the bytes
read back decoded. -/
theorem set_then_get_witness :
    (usersDB.Set jsonMarshal (ascii "users") (ascii "carol") (.bool true)).2.Get
        (ascii "users") (ascii "carol") = .ret (ascii "true") ∧
      (usersDB.Set jsonMarshal (ascii "users") (ascii "alice") .null).2.Get
        (ascii "users") (ascii "alice") = .ret (ascii "null") ∧
      ∃ bs, (usersDB.Set jsonMarshal (ascii "users") (ascii "alice") .null).2.Get
        (ascii "users") (ascii "alice") = .ret bs ∧ jsonUnmarshal bs = some .null :=
  ⟨(set_then_get jsonMarshal usersDB _ (ascii "users") (ascii "carol") (.bool true)
      (ascii "true") rfl (by decide)).1,
   (set_then_get jsonMarshal usersDB _ (ascii "users") (ascii "alice") .null
      (ascii "null") rfl (by decide)).1,
   (set_then_get jsonMarshal usersDB _ (ascii "users") (ascii "alice") .null
      (ascii "null") rfl (by decide)).2 jsonUnmarshal (by decide)⟩

/-- Counterexample to C2: in the bucket users of `usersDB` the key carol was
never written, and `Get` returns a zero-length byte sequence, the same result
it gives in a store where carol holds a zero-length value. -/
theorem get_absent_key_counterexample :
    usersDB.Get (ascii "users") (ascii "carol") = .ret [] ∧
      DB.Get { opened := true, buckets := [(ascii "users", [(ascii "carol", [])])] }
        (ascii "users") (ascii "carol") = .ret [] := by
  decide

/-- C2, amended: in an open store, `Get` on an existing bucket and a key the
bucket does not hold returns a zero-length byte sequence (no NotFound), and so
does `Get` after `Delete` of the key. -/
theorem get_absent_key (db : DB) (bucket key : Bytes) (b : BucketData)
    (hopen : db.opened = true) (hwf : db.WF) (hb : (bucket, b) ∈ db.buckets) :
    ((∀ r ∈ b, r.1 ≠ key) → db.Get bucket key = .ret []) ∧
      (db.Delete bucket key).2.Get bucket key = .ret [] := by
  have hbk : Tx.Bucket db.buckets bucket = some b := Tx.Bucket_of_mem hwf.1 hb
  have hsb : SortedKeys b := (hwf.2.2 _ hb).1
  constructor
  · intro hk
    simp [DB.Get, DB.View, hopen, hbk, BucketData.Get_absent hk, errorfS, GoError.Error]
  · simp [DB.Delete, DB.Update, hopen, hbk, BucketData.Delete, DB.Get, DB.View,
      Tx.Bucket_nodePut, BucketData.Get_nodeDel hsb, errorfS, GoError.Error]

/-- Witness of C2 (amended): the key carol is absent from users, the key bob is
deleted. -/
theorem get_absent_key_witness :
    usersDB.Get (ascii "users") (ascii "carol") = .ret [] ∧
      (usersDB.Delete (ascii "users") (ascii "bob")).2.Get (ascii "users") (ascii "bob")
        = .ret [] :=
  ⟨(get_absent_key usersDB (ascii "users") (ascii "carol") _ (by decide) (by decide)
      (List.mem_cons_self _ _)).1 (by decide),
   (get_absent_key usersDB (ascii "users") (ascii "bob") _ (by decide) (by decide)
      (List.mem_cons_self _ _)).2⟩

/-- C3, what the code does: in an open store without the bucket, `Set` (of a
value that serializes), `Get`, `Delete` and `Seek` all panic on the nil bucket
instead of returning an error; the store stays as it was. -/
theorem missing_bucket_panics {V : Type} (marshal : V → Except GoError Bytes) (db : DB)
    (bucket key : Bytes) (value : V) (val : Bytes) (fuel : Nat)
    (hopen : db.opened = true) (hb : ∀ p ∈ db.buckets, p.1 ≠ bucket)
    (hm : marshal value = .ok val) :
    db.Set marshal bucket key value = (.panic, db) ∧
      db.Get bucket key = .panic ∧
      db.Delete bucket key = (.panic, db) ∧
      db.Seek fuel bucket key = .panic := by
  have hbk : Tx.Bucket db.buckets bucket = none := Tx.Bucket_absent hb
  refine ⟨?_, ?_, ?_, ?_⟩
  · simp [DB.Set, hm, DB.Update, hopen, hbk]
  · simp [DB.Get, DB.View, hopen, hbk]
  · simp [DB.Delete, DB.Update, hopen, hbk]
  · simp [DB.Seek, DB.View, hopen, hbk]

/-- Witness of C3: `usersDB` has no bucket orders. -/
theorem missing_bucket_panics_witness :
    usersDB.Set jsonMarshal (ascii "orders") (ascii "k") GoValue.null = (.panic, usersDB) ∧
      usersDB.Get (ascii "orders") (ascii "k") = .panic ∧
      usersDB.Delete (ascii "orders") (ascii "k") = (.panic, usersDB) ∧
      usersDB.Seek 5 (ascii "orders") (ascii "k") = .panic :=
  missing_bucket_panics jsonMarshal usersDB (ascii "orders") (ascii "k") .null (ascii "null") 5
    (by decide) (by decide) rfl

/-! ## Seek -/

theorem HasPrefix_iff (s pfx : Bytes) : HasPrefix s pfx = true ↔ pfx <+: s := by
  induction pfx generalizing s with
  | nil => simp [HasPrefix_nil]
  | cons a p ih =>
    cases s with
    | nil => simp [HasPrefix_nil_cons]
    | cons c s =>
      rw [HasPrefix_cons_cons, List.cons_prefix_cons]
      simp only [Bool.and_eq_true, decide_eq_true_eq, ih]
      constructor <;> rintro ⟨h1, h2⟩ <;> exact ⟨h1.symm, h2⟩

/-- C4: in an open, well-formed store, for an existing bucket and non-empty
sought bytes, `Seek` returns (given a step budget above the number of records)
having visited exactly the records of the bucket whose key starts with the
sought bytes: each one once, in ascending byte order of the keys, and no
other record. -/
theorem seek_visits_matching_records (db : DB) (bucket pfx : Bytes) (b : BucketData)
    (fuel : Nat) (hopen : db.opened = true) (hwf : db.WF) (hb : (bucket, b) ∈ db.buckets)
    (hp : pfx ≠ []) (hf : b.length + 1 ≤ fuel) :
    ∃ out, db.Seek fuel bucket pfx = .ret (none, out) ∧
      (∀ r, r ∈ out ↔ r ∈ b ∧ pfx <+: r.1) ∧
      out.Pairwise (fun p q => bytesLt p.1 q.1 = true) ∧
      out.Sublist b ∧ out.Nodup := by
  have hbk : Tx.Bucket db.buckets bucket = some b := Tx.Bucket_of_mem hwf.1 hb
  have hsb : SortedKeys b := (hwf.2.2 _ hb).1
  have hsub : (b.filter (fun r => HasPrefix r.1 pfx)).Sublist b := List.filter_sublist b
  have hpw : (b.filter (fun r => HasPrefix r.1 pfx)).Pairwise
      (fun p q => bytesLt p.1 q.1 = true) := List.Pairwise.sublist hsub hsb
  refine ⟨b.filter (fun r => HasPrefix r.1 pfx), ?_, ?_, hpw, hsub, ?_⟩
  · simp [DB.Seek, DB.View, hopen, hbk, seekLoop_Seek hp b pfx fuel hf,
      takeWhile_seek_eq_filter hsb]
  · intro r
    rw [List.mem_filter, HasPrefix_iff]
  · exact hpw.imp (fun h e => bytesLt_ne h (congrArg Prod.fst e))

/-- Witness of C4: over the keys alice, alan and bob, the sought bytes "al"
visit alan and then alice, and not bob. -/
theorem seek_visits_matching_records_witness :
    usersDB.Seek 4 (ascii "users") (ascii "al")
      = .ret (none, [(ascii "alan", ascii "false"), (ascii "alice", ascii "true")]) ∧
    ∃ out, usersDB.Seek 4 (ascii "users") (ascii "al") = .ret (none, out) ∧
      (∀ r, r ∈ out ↔
        r ∈ [(ascii "alan", ascii "false"), (ascii "alice", ascii "true"),
          (ascii "bob", ascii "null")] ∧ ascii "al" <+: r.1) ∧
      out.Pairwise (fun p q => bytesLt p.1 q.1 = true) ∧
      out.Sublist [(ascii "alan", ascii "false"), (ascii "alice", ascii "true"),
          (ascii "bob", ascii "null")] ∧ out.Nodup :=
  ⟨by decide,
   seek_visits_matching_records usersDB (ascii "users") (ascii "al") _ 4 (by decide) (by decide)
    (List.mem_cons_self _ _) (by decide) (by decide)⟩

/-- C5, what the code does: with empty sought bytes the scan loop of `Seek`
never exits, whatever the bucket holds, because `bytes.HasPrefix(nil, "")` is
true at the end of the bucket: no step budget `fuel` lets `Seek` return. -/
theorem seek_empty_never_returns (db : DB) (bucket : Bytes) (b : BucketData) (fuel : Nat)
    (hopen : db.opened = true) (hwf : db.WF) (hb : (bucket, b) ∈ db.buckets) :
    db.Seek fuel bucket [] = .diverge := by
  have hbk : Tx.Bucket db.buckets bucket = some b := Tx.Bucket_of_mem hwf.1 hb
  simp [DB.Seek, DB.View, hopen, hbk, seekLoop_empty]

/-- Witness of C5: the bucket users of `usersDB`, three records, a thousand
steps. -/
theorem seek_empty_never_returns_witness :
    usersDB.Seek 1000 (ascii "users") [] = .diverge :=
  seek_empty_never_returns usersDB (ascii "users") _ 1000 (by decide) (by decide)
    (List.mem_cons_self _ _)

/-! ## Delete, Bucket, serialization errors and closed stores -/

/-- C6: in an open, well-formed store with the bucket present, `Delete` returns
no error, a second `Delete` of the same key returns no error and leaves the
store as the first left it, and `Delete` of a key the bucket does not hold
returns no error and leaves the store as it was. -/
theorem delete_idempotent (db : DB) (bucket key : Bytes) (b : BucketData)
    (hopen : db.opened = true) (hwf : db.WF) (hb : (bucket, b) ∈ db.buckets) :
    (db.Delete bucket key).1 = .ret none ∧
      ((db.Delete bucket key).2.Delete bucket key).1 = .ret none ∧
      ((db.Delete bucket key).2.Delete bucket key).2 = (db.Delete bucket key).2 ∧
      ((∀ r ∈ b, r.1 ≠ key) → db.Delete bucket key = (.ret none, db)) := by
  have hbk : Tx.Bucket db.buckets bucket = some b := Tx.Bucket_of_mem hwf.1 hb
  have hsb : SortedKeys b := (hwf.2.2 _ hb).1
  have h1 : db.Delete bucket key
      = (.ret none, { db with buckets := nodePut db.buckets bucket (nodeDel b key) }) := by
    simp [DB.Delete, DB.Update, hopen, hbk, BucketData.Delete]
  have h2 : DB.Delete { db with buckets := nodePut db.buckets bucket (nodeDel b key) } bucket key
      = (.ret none, { db with buckets := nodePut db.buckets bucket (nodeDel b key) }) := by
    simp [DB.Delete, DB.Update, hopen, Tx.Bucket_nodePut, BucketData.Delete,
      nodeDel_nodeDel hsb, nodePut_nodePut]
  refine ⟨by rw [h1], by rw [h1, h2], by rw [h1, h2], ?_⟩
  intro hk
  rw [h1, nodeDel_absent hk, Tx.nodePut_of_Bucket hbk]

/-- Witness of C6: deleting bob twice, and deleting the absent carol. -/
theorem delete_idempotent_witness :
    (usersDB.Delete (ascii "users") (ascii "bob")).1 = .ret none ∧
      ((usersDB.Delete (ascii "users") (ascii "bob")).2.Delete (ascii "users") (ascii "bob")).1
        = .ret none ∧
      ((usersDB.Delete (ascii "users") (ascii "bob")).2.Delete (ascii "users") (ascii "bob")).2
        = (usersDB.Delete (ascii "users") (ascii "bob")).2 ∧
      usersDB.Delete (ascii "users") (ascii "carol") = (.ret none, usersDB) :=
  ⟨(delete_idempotent usersDB (ascii "users") (ascii "bob") _ (by decide) (by decide)
      (List.mem_cons_self _ _)).1,
   (delete_idempotent usersDB (ascii "users") (ascii "bob") _ (by decide) (by decide)
      (List.mem_cons_self _ _)).2.1,
   (delete_idempotent usersDB (ascii "users") (ascii "bob") _ (by decide) (by decide)
      (List.mem_cons_self _ _)).2.2.1,
   (delete_idempotent usersDB (ascii "users") (ascii "carol") _ (by decide) (by decide)
      (List.mem_cons_self _ _)).2.2.2 (by decide)⟩

/-- C7: in an open, well-formed store, `Bucket(name)` for a name already
present returns bolt's ErrBucketExists and the store is the one before: every
bucket keeps its records. -/
theorem bucket_already_exists (db : DB) (bucket : Bytes) (b : BucketData)
    (hopen : db.opened = true) (hwf : db.WF) (hb : (bucket, b) ∈ db.buckets) :
    db.Bucket bucket = (.ret (some .ErrBucketExists), db) := by
  obtain ⟨rest, hrest⟩ := seek_of_mem hwf.1 hb
  have hne : bucket ≠ [] := hwf.2.1 _ hb
  have hlen : bucket.length ≠ 0 := fun h => hne (List.length_eq_zero.mp h)
  simp [DB.Bucket, DB.Update, hopen, Tx.CreateBucket, hlen, hrest]

/-- Witness of C7: creating users again in `usersDB`. -/
theorem bucket_already_exists_witness :
    usersDB.Bucket (ascii "users") = (.ret (some .ErrBucketExists), usersDB) :=
  bucket_already_exists usersDB (ascii "users") _ (by decide) (by decide)
    (List.mem_cons_self _ _)

/-- C8: when `json.Marshal` fails on the value, `Set` returns that error and
the store it was given, whatever the store, bucket and key: it returns before
`db.Update` is reached. -/
theorem set_unserializable {V : Type} (marshal : V → Except GoError Bytes) (db : DB)
    (bucket key : Bytes) (value : V) (e : GoError) (hm : marshal value = .error e) :
    db.Set marshal bucket key value = (.ret (some e), db) := by
  simp [DB.Set, hm]

/-- Witness of C8: a channel cannot be marshalled. -/
theorem set_unserializable_witness :
    usersDB.Set jsonMarshal (ascii "users") (ascii "alice") GoValue.chan
      = (.ret (some (.marshalError (ascii "json: unsupported type: chan int"))), usersDB) :=
  set_unserializable jsonMarshal usersDB (ascii "users") (ascii "alice") .chan _ rfl

/-- Counterexample to C9: on the closed store `closedDB`, `Set` of a channel
returns the serialization error and not bolt's ErrDatabaseNotOpen, and `Get`
returns normally, its value being the text "database not open". -/
theorem closed_store_counterexample :
    (closedDB.Set jsonMarshal (ascii "users") (ascii "alice") GoValue.chan).1
        ≠ .ret (some .ErrDatabaseNotOpen) ∧
      closedDB.Get (ascii "users") (ascii "alice") = .ret (ascii "database not open") := by
  decide

/-- C9, amended: on a closed store `Bucket`, `Delete` and `Seek` return bolt's
ErrDatabaseNotOpen; `Set` returns it when the value serializes and returns the
serialization error otherwise; `Get` returns the message of ErrDatabaseNotOpen
as its byte value; the store stays as it was. -/
theorem closed_store_operations {V : Type} (marshal : V → Except GoError Bytes) (db : DB)
    (bucket key : Bytes) (value : V) (fuel : Nat) (hclosed : db.opened = false) :
    db.Bucket bucket = (.ret (some .ErrDatabaseNotOpen), db) ∧
      db.Delete bucket key = (.ret (some .ErrDatabaseNotOpen), db) ∧
      db.Seek fuel bucket key = .ret (some .ErrDatabaseNotOpen, []) ∧
      (∀ val, marshal value = .ok val →
        db.Set marshal bucket key value = (.ret (some .ErrDatabaseNotOpen), db)) ∧
      (∀ e, marshal value = .error e → db.Set marshal bucket key value = (.ret (some e), db)) ∧
      db.Get bucket key = .ret (GoError.Error .ErrDatabaseNotOpen) := by
  refine ⟨?_, ?_, ?_, ?_, ?_, ?_⟩
  · simp [DB.Bucket, DB.Update, hclosed]
  · simp [DB.Delete, DB.Update, hclosed]
  · simp [DB.Seek, DB.View, hclosed]
  · intro val hm
    simp [DB.Set, hm, DB.Update, hclosed]
  · intro e hm
    simp [DB.Set, hm]
  · simp [DB.Get, DB.View, hclosed]

/-- Witness of C9 (amended): the closed store `closedDB`. -/
theorem closed_store_operations_witness :
    closedDB.Bucket (ascii "users") = (.ret (some .ErrDatabaseNotOpen), closedDB) ∧
      closedDB.Delete (ascii "users") (ascii "bob") = (.ret (some .ErrDatabaseNotOpen), closedDB) ∧
      closedDB.Seek 4 (ascii "users") (ascii "al") = .ret (some .ErrDatabaseNotOpen, []) ∧
      closedDB.Set jsonMarshal (ascii "users") (ascii "bob") GoValue.null
        = (.ret (some .ErrDatabaseNotOpen), closedDB) ∧
      closedDB.Get (ascii "users") (ascii "bob") = .ret (ascii "database not open") :=
  have h := closed_store_operations jsonMarshal closedDB (ascii "users") (ascii "bob")
    GoValue.null 4 (by decide)
  ⟨h.1, h.2.1, h.2.2.1, h.2.2.2.1 _ rfl, h.2.2.2.2.2⟩

/-! ## UserHandler -/

theorem stringsContains_singleton (s : Bytes) (a : Byte) :
    stringsContains s [a] = true ↔ a ∈ s := by
  induction s with
  | nil => simp [stringsContains, HasPrefix_nil_cons]
  | cons c s ih =>
    simp only [stringsContains, HasPrefix_cons_cons, HasPrefix_nil, Bool.and_true,
      Bool.or_eq_true, decide_eq_true_eq, ih, List.mem_cons]
    constructor <;> rintro (h | h)
    · exact Or.inl h.symm
    · exact Or.inr h
    · exact Or.inl h.symm
    · exact Or.inr h

/-- C10: the handler hands the store back untouched and what it writes does
not depend on the store.  When name or pass is shorter than 5 bytes it writes
nothing; otherwise it writes exactly one JSON string, which is "failed" iff
the action is REGISTER and mail holds no '@' (byte 64), "invalid" iff the
action is none of REGISTER, LOGIN, LOGOUT, and "success" iff neither. -/
theorem userHandler_response (db : DB) (w : ResponseWriter) (r : RequestBody) :
    (db.UserHandler w r).2 = db ∧
      (∀ db2 : DB, (db2.UserHandler w r).1 = (db.UserHandler w r).1) ∧
      ((r.Name.length < 5 ∨ r.Pass.length < 5) → (db.UserHandler w r).1.body = w.body) ∧
      (5 ≤ r.Name.length ∧ 5 ≤ r.Pass.length →
        ∃ s, (db.UserHandler w r).1.body = w.body ++ [marshalString s] ∧
          (s = ascii "failed" ↔ r.Action = ascii "REGISTER" ∧ (64 : Byte) ∉ r.Mail) ∧
          (s = ascii "invalid" ↔ r.Action ≠ ascii "REGISTER" ∧ r.Action ≠ ascii "LOGIN" ∧
            r.Action ≠ ascii "LOGOUT") ∧
          (s = ascii "success" ↔ ¬ (r.Action = ascii "REGISTER" ∧ (64 : Byte) ∉ r.Mail) ∧
            ¬ (r.Action ≠ ascii "REGISTER" ∧ r.Action ≠ ascii "LOGIN" ∧
              r.Action ≠ ascii "LOGOUT"))) := by
  have hat : ascii "@" = [(64 : Byte)] := by decide
  have hfi : ascii "failed" ≠ ascii "invalid" := by decide
  have hfs : ascii "failed" ≠ ascii "success" := by decide
  have his : ascii "invalid" ≠ ascii "success" := by decide
  have hRL : ascii "REGISTER" ≠ ascii "LOGIN" := by decide
  have hRO : ascii "REGISTER" ≠ ascii "LOGOUT" := by decide
  have hLO : ascii "LOGIN" ≠ ascii "LOGOUT" := by decide
  refine ⟨?_, ?_, ?_, ?_⟩
  · unfold DB.UserHandler
    simp only
    split_ifs <;> rfl
  · intro db2
    unfold DB.UserHandler
    simp only
    split_ifs <;> rfl
  · intro hshort
    have hn : ¬ (r.Name.length ≥ 5 ∧ r.Pass.length ≥ 5) := by omega
    simp [DB.UserHandler, hn, ResponseWriter.HeaderSet]
  · intro hlong
    have hl : r.Name.length ≥ 5 ∧ r.Pass.length ≥ 5 := hlong
    by_cases hR : r.Action = ascii "REGISTER"
    · by_cases hm : (64 : Byte) ∈ r.Mail
      · have hc : stringsContains r.Mail (ascii "@") = true := by
          rw [hat]; exact (stringsContains_singleton _ _).mpr hm
        refine ⟨ascii "success", ?_, ?_, ?_, ?_⟩
        · simp [DB.UserHandler, hl, hR, hc, ResponseWriter.HeaderSet, ResponseWriter.Write]
        · simp [hfs.symm, hm]
        · simp [his.symm, hR]
        · simp [hm, hR]
      · have hc : ¬ stringsContains r.Mail (ascii "@") = true := by
          rw [hat]; exact fun h => hm ((stringsContains_singleton _ _).mp h)
        refine ⟨ascii "failed", ?_, ?_, ?_, ?_⟩
        · simp [DB.UserHandler, hl, hR, hc, ResponseWriter.HeaderSet, ResponseWriter.Write]
        · simp [hm, hR]
        · simp [hfi, hR]
        · simp [hfs, hm, hR]
    · by_cases hL : r.Action = ascii "LOGIN"
      · refine ⟨ascii "success", ?_, ?_, ?_, ?_⟩
        · simp [DB.UserHandler, hl, hL, hRL.symm, ResponseWriter.HeaderSet,
            ResponseWriter.Write]
        · simp [hfs.symm, hR]
        · simp [his.symm, hL]
        · simp [hL, hRL.symm]
      · by_cases hO : r.Action = ascii "LOGOUT"
        · refine ⟨ascii "success", ?_, ?_, ?_, ?_⟩
          · simp [DB.UserHandler, hl, hO, hRO.symm, hLO.symm, ResponseWriter.HeaderSet,
              ResponseWriter.Write]
          · simp [hfs.symm, hR]
          · simp [his.symm, hO]
          · simp [hO, hRO.symm]
        · refine ⟨ascii "invalid", ?_, ?_, ?_, ?_⟩
          · simp [DB.UserHandler, hl, hR, hL, hO, ResponseWriter.HeaderSet,
              ResponseWriter.Write]
          · simp [hfi.symm, hR]
          · simp [hR, hL, hO]
          · simp [his, hR, hL, hO]

/-- Witness of C10: a REGISTER request whose mail has no '@', and a request
whose name is too short. -/
theorem userHandler_response_witness :
    (usersDB.UserHandler ⟨[], []⟩
        ⟨ascii "REGISTER", ascii "alice", ascii "secret", ascii "alice.example.org"⟩).1.body
        = [marshalString (ascii "failed")] ∧
      (usersDB.UserHandler ⟨[], []⟩
        ⟨ascii "REGISTER", ascii "al", ascii "secret", ascii "al@example.org"⟩).1.body = [] := by
  constructor
  · obtain ⟨s, hbody, hfailed, _, _⟩ :=
      (userHandler_response usersDB ⟨[], []⟩
        ⟨ascii "REGISTER", ascii "alice", ascii "secret", ascii "alice.example.org"⟩).2.2.2
        (by decide)
    have hs : s = ascii "failed" := hfailed.mpr (by decide)
    rw [hbody, hs]
    rfl
  · exact (userHandler_response usersDB ⟨[], []⟩
        ⟨ascii "REGISTER", ascii "al", ascii "secret", ascii "al@example.org"⟩).2.2.1
        (by decide)

end Bolty
